import Mathlib

/-!
Pattern matching teaching snippets: `factorial` and `treeHeight`

A shallow embedding of the two JavaScript snippets

* `assets/js/js-04-switch-case-ifnegative.js` (`factorial`)
* `assets/js/js-08-object-destructuring.js` (`Tree`, `Branch`, `Leaf`, `treeHeight`)

JavaScript numbers are modelled by exact integers (`Int`): the development covers
integer arguments, for which `===`, `<`, `-`, `*`, `+` and `Math.max` are the integer
operations.  The values `null`, `undefined` and `NaN` are kept, because the code can
produce them, together with the `ToNumber` coercion the arithmetic operators apply.
Non-integer arguments of `factorial` are covered by a second evaluator over exact
rationals (`ℚ`), which agrees with the integer one on integer arguments.
-/

namespace PatternMatching

/-! ## JavaScript values -/

/-- The JavaScript values the two snippets can produce or consume. -/
inductive JsVal where
  | undefined
  | null
  | num (v : Int)
  | nan
  deriving DecidableEq

/-- The `ToNumber` coercion: `undefined` becomes `NaN`, `null` becomes `0`. -/
def toNumber : JsVal → JsVal
  | .undefined => .nan
  | .null => .num 0
  | .num v => .num v
  | .nan => .nan

/-- The operator `a * b`. -/
def jsMul (a b : JsVal) : JsVal :=
  match toNumber a, toNumber b with
  | .num x, .num y => .num (x * y)
  | _, _ => .nan

/-- The operator `a + b` on non-string operands. -/
def jsAdd (a b : JsVal) : JsVal :=
  match toNumber a, toNumber b with
  | .num x, .num y => .num (x + y)
  | _, _ => .nan

/-- The call `Math.max(a, b)`. -/
def mathMax (a b : JsVal) : JsVal :=
  match toNumber a, toNumber b with
  | .num x, .num y => .num (max x y)
  | _, _ => .nan

/-! ## `factorial` -/

/-- The function `factorial` as written (the `switch` with the ternary in its `default`
case), by recursion on the argument. -/
def factorial (n : Int) : JsVal :=
  if n = 0 then .num 1
  else if n = 1 then .num 1
  else if n < 0 then .null
  else jsMul (.num n) (factorial (n - 1))
termination_by n.toNat
decreasing_by omega

/-- The evaluation of `factorial` with a bound on the number of nested activations:
`fuel` activations may be open at once, and `none` means that the bound was hit. -/
def factorialFuel : Nat → Int → Option JsVal
  | 0, _ => none
  | fuel + 1, n =>
    if n = 0 then some (.num 1)
    else if n = 1 then some (.num 1)
    else if n < 0 then some .null
    else (factorialFuel fuel (n - 1)).map (jsMul (.num n))

/-- The argument of the recursive call that the body of `factorial` makes on `n`, or `none`
when the body returns without calling `factorial`. -/
def factorialCall (n : Int) : Option Int :=
  if n = 0 then none
  else if n = 1 then none
  else if n < 0 then none
  else some (n - 1)

/-- The number of nested recursive self-calls made while evaluating `factorial n`
(`none` when `fuel` activations do not suffice). -/
def factorialDepth : Nat → Int → Option Nat
  | 0, _ => none
  | fuel + 1, n =>
    if n = 0 then some 0
    else if n = 1 then some 0
    else if n < 0 then some 0
    else (factorialDepth fuel (n - 1)).map (· + 1)

/-- The `default` case written as the ternary expression
`(n < 0) ? null : n * factorial(n - 1)`, over a given recursive callee. -/
def defaultTernary (self : Int → Option JsVal) (n : Int) : Option JsVal :=
  bif decide (n < 0) then some .null else (self (n - 1)).map (jsMul (.num n))

/-- The `default` case written as the statement
`if (n < 0) { return null; } else { return n * factorial(n-1); }`, over a given
recursive callee. -/
def defaultIfElse (self : Int → Option JsVal) (n : Int) : Option JsVal :=
  if n < 0 then
    some .null
  else
    match self (n - 1) with
    | none => none
    | some r => some (jsMul (.num n) r)

/-- The function `factorial` whose `default` case is the ternary expression. -/
def factorialTernary : Nat → Int → Option JsVal
  | 0, _ => none
  | fuel + 1, n =>
    if n = 0 then some (.num 1)
    else if n = 1 then some (.num 1)
    else defaultTernary (factorialTernary fuel) n

/-- The function `factorial` whose `default` case is the `if`/`else` statement. -/
def factorialIfElse : Nat → Int → Option JsVal
  | 0, _ => none
  | fuel + 1, n =>
    if n = 0 then some (.num 1)
    else if n = 1 then some (.num 1)
    else defaultIfElse (factorialIfElse fuel) n

/-! ## `Tree` and `treeHeight` -/

/-- The values `treeHeight` can be given: a `Branch` object, a `Leaf` object, or any other
value, one that is an instance of neither class (such as a bare `new Tree()`). -/
inductive Tree where
  | Branch (value : Int) (left right : Tree)
  | Leaf
  | Other
  deriving DecidableEq

open Tree in
/-- The test `tree instanceof Branch`. -/
def instanceofBranch : Tree → Bool
  | Branch _ _ _ => true
  | _ => false

open Tree in
/-- The test `tree instanceof Leaf`. -/
def instanceofLeaf : Tree → Bool
  | Leaf => true
  | _ => false

open Tree in
/-- A tree built only from `Branch` and `Leaf`. -/
def wellTyped : Tree → Bool
  | Branch _ l r => wellTyped l && wellTyped r
  | Leaf => true
  | Other => false

open Tree in
/-- The number of nodes of a tree. -/
def nodes : Tree → Nat
  | Branch _ l r => nodes l + nodes r + 1
  | _ => 1

open Tree in
/-- The function `treeHeight`; falling off the end of the function returns `undefined`. -/
def treeHeight : Tree → JsVal
  | Branch _ left right => jsAdd (.num 1) (mathMax (treeHeight left) (treeHeight right))
  | Leaf => .num 0
  | Other => .undefined

open Tree in
/-- The evaluation of `treeHeight` with a bound on the number of nested activations. -/
def treeHeightFuel : Nat → Tree → Option JsVal
  | 0, _ => none
  | fuel + 1, Branch _ left right =>
    match treeHeightFuel fuel left with
    | none => none
    | some a =>
      match treeHeightFuel fuel right with
      | none => none
      | some b => some (jsAdd (.num 1) (mathMax a b))
  | _ + 1, Leaf => some (.num 0)
  | _ + 1, Other => some .undefined

open Tree in
/-- The arguments of the recursive calls that the body of `treeHeight` makes on a tree. -/
def treeHeightCalls : Tree → List Tree
  | Branch _ left right => [left, right]
  | _ => []

open Tree in
/-- The tree of the example script. -/
def tree : Tree := Branch 5 (Branch 3 Leaf Leaf) Leaf

/-! ## `factorial` on rational arguments -/

/-- The JavaScript values `factorial` can produce on a rational argument. -/
inductive JsValQ where
  | undefined
  | null
  | num (v : ℚ)
  | nan
  deriving DecidableEq

/-- The `ToNumber` coercion on `JsValQ`. -/
def toNumberQ : JsValQ → JsValQ
  | .undefined => .nan
  | .null => .num 0
  | .num v => .num v
  | .nan => .nan

/-- The operator `a * b` on `JsValQ`. -/
def jsMulQ (a b : JsValQ) : JsValQ :=
  match toNumberQ a, toNumberQ b with
  | .num x, .num y => .num (x * y)
  | _, _ => .nan

/-- An integer-valued result read as a rational-valued one. -/
def JsVal.toQ : JsVal → JsValQ
  | .undefined => .undefined
  | .null => .null
  | .num v => .num (v : ℚ)
  | .nan => .nan

/-- The test `Number.isInteger(n)` on a rational number. -/
def isInteger (n : ℚ) : Bool := decide (n.den = 1)

/-- The evaluation of `factorial` on a rational argument, with a bound on the number of
nested activations. -/
def factorialFuelQ : Nat → ℚ → Option JsValQ
  | 0, _ => none
  | fuel + 1, n =>
    if n = 0 then some (.num 1)
    else if n = 1 then some (.num 1)
    else if n < 0 then some .null
    else (factorialFuelQ fuel (n - 1)).map (jsMulQ (.num n))

/-- The argument of the recursive call that the body of `factorial` makes on a rational
`n`, or `none` when the body returns without calling `factorial`. -/
def factorialCallQ (n : ℚ) : Option ℚ :=
  if n = 0 then none
  else if n = 1 then none
  else if n < 0 then none
  else some (n - 1)

/-- The chain of recursive calls `factorial(n)`, `factorial(n - 1)`, ...: the argument of
the `k`-th nested call (the `0`-th being the initial call), or `none` when the chain has
ended before. -/
def factorialChainQ : Nat → ℚ → Option ℚ
  | 0, n => some n
  | k + 1, n =>
    match factorialCallQ n with
    | none => none
    | some m => factorialChainQ k m

open Tree in
/-- The number of `Branch` nodes of a tree. -/
def branches : Tree → Nat
  | Branch _ l r => branches l + branches r + 1
  | _ => 0

open Tree in
/-- The tree with the `value` of the `Branch` at the end of `path` replaced by `v`
(`false` goes to `left`, `true` to `right`); a path that leaves the tree changes nothing. -/
def replaceValue : List Bool → Int → Tree → Tree
  | [], v, Branch _ l r => Branch v l r
  | false :: path, v, Branch w l r => Branch w (replaceValue path v l) r
  | true :: path, v, Branch w l r => Branch w l (replaceValue path v r)
  | _, _, t => t

open Tree in
/-- The tree with every stored `value` replaced through `f`. -/
def mapValues (f : Int → Int) : Tree → Tree
  | Branch w l r => Branch (f w) (mapValues f l) (mapValues f r)
  | Leaf => Leaf
  | Other => Other

open Tree in
/-- The mirror image: `left` and `right` swapped in every `Branch`. -/
def mirror : Tree → Tree
  | Branch w l r => Branch w (mirror r) (mirror l)
  | Leaf => Leaf
  | Other => Other

open Tree in
/-- Two trees of the same shape: equal up to the values stored in their `Branch` nodes. -/
def sameShape : Tree → Tree → Bool
  | Branch _ l r, Branch _ l' r' => sameShape l l' && sameShape r r'
  | Leaf, Leaf => true
  | Other, Other => true
  | _, _ => false

/-! ## Shared lemmas -/

theorem factorial_unfold (n : Int) :
    factorial n =
      if n = 0 then .num 1
      else if n = 1 then .num 1
      else if n < 0 then .null
      else jsMul (.num n) (factorial (n - 1)) := by
  rw [factorial]

theorem factorialFuel_succ (fuel : Nat) (n : Int) :
    factorialFuel (fuel + 1) n =
      if n = 0 then some (.num 1)
      else if n = 1 then some (.num 1)
      else if n < 0 then some .null
      else (factorialFuel fuel (n - 1)).map (jsMul (.num n)) := rfl

theorem factorialFuel_eq_factorial (fuel : Nat) :
    ∀ n : Int, n ≤ fuel + 1 → factorialFuel (fuel + 1) n = some (factorial n) := by
  induction fuel with
  | zero =>
    intro n hn
    rw [factorial_unfold, factorialFuel_succ]
    split_ifs with h0 h1 h2
    · rfl
    · rfl
    · rfl
    · exfalso; push_cast at hn; omega
  | succ k ih =>
    intro n hn
    rw [factorial_unfold, factorialFuel_succ]
    split_ifs with h0 h1 h2
    · rfl
    · rfl
    · rfl
    · rw [ih (n - 1) (by push_cast at hn ⊢; omega)]; rfl

theorem factorialFuel_enough (n : Int) (k : Nat) :
    factorialFuel (n.toNat + 1 + k) n = some (factorial n) := by
  have e : n.toNat + 1 + k = (n.toNat + k) + 1 := by omega
  rw [e]
  exact factorialFuel_eq_factorial (n.toNat + k) n (by push_cast; omega)

theorem treeHeight_branch (v : Int) (l r : Tree) :
    treeHeight (Tree.Branch v l r) =
      jsAdd (.num 1) (mathMax (treeHeight l) (treeHeight r)) := rfl

theorem treeHeight_num (t : Tree) :
    wellTyped t = true → ∃ a : Int, 0 ≤ a ∧ treeHeight t = .num a := by
  induction t with
  | Branch v l r ihl ihr =>
    intro h
    simp only [wellTyped, Bool.and_eq_true] at h
    obtain ⟨a, ha, hl⟩ := ihl h.1
    obtain ⟨b, _, hr⟩ := ihr h.2
    refine ⟨1 + max a b, ?_, ?_⟩
    · have : a ≤ max a b := le_max_left a b
      omega
    · rw [treeHeight_branch, hl, hr]; rfl
  | Leaf => intro _; exact ⟨0, le_refl _, rfl⟩
  | Other => intro h; simp [wellTyped] at h

theorem treeHeightFuel_enough (t : Tree) :
    ∀ k : Nat, treeHeightFuel (nodes t + k) t = some (treeHeight t) := by
  induction t with
  | Branch v l r ihl ihr =>
    intro k
    have e : nodes (Tree.Branch v l r) + k = (nodes l + (nodes r + k)) + 1 := by
      simp only [nodes]; omega
    have hl := ihl (nodes r + k)
    have hr := ihr (nodes l + k)
    have e2 : nodes r + (nodes l + k) = nodes l + (nodes r + k) := by omega
    rw [e2] at hr
    rw [e]
    simp only [treeHeightFuel, hl, hr, treeHeight]
  | Leaf =>
    intro k
    have e : nodes Tree.Leaf + k = k + 1 := by simp only [nodes]; omega
    rw [e]; rfl
  | Other =>
    intro k
    have e : nodes Tree.Other + k = k + 1 := by simp only [nodes]; omega
    rw [e]; rfl

theorem defaultTernary_eq_defaultIfElse (self : Int → Option JsVal) (n : Int) :
    defaultTernary self n = defaultIfElse self n := by
  unfold defaultTernary defaultIfElse
  by_cases h : n < 0
  · simp [h]
  · simp only [h, decide_False, cond_false, if_false]
    cases self (n - 1) <;> rfl

theorem factorialTernary_eq_factorialFuel (fuel : Nat) :
    ∀ n : Int, factorialTernary fuel n = factorialFuel fuel n := by
  induction fuel with
  | zero => intro n; rfl
  | succ k ih =>
    intro n
    rw [factorialFuel_succ]
    simp only [factorialTernary, defaultTernary]
    by_cases h : n < 0
    · simp [h]
    · simp [h, ih (n - 1)]

theorem factorialTernary_eq_factorialIfElse (fuel : Nat) :
    ∀ n : Int, factorialTernary fuel n = factorialIfElse fuel n := by
  induction fuel with
  | zero => intro n; rfl
  | succ k ih =>
    intro n
    have hk : factorialTernary k = factorialIfElse k := funext ih
    simp only [factorialTernary, factorialIfElse, hk, defaultTernary_eq_defaultIfElse]

/-- C2: `factorial 0` is `1` and `factorial 1` is `1`; each is returned by its own `case`
with a single activation, the body making no recursive call. -/
theorem factorial_base_cases :
    factorial 0 = .num 1 ∧ factorial 1 = .num 1 ∧
      factorialFuel 1 0 = some (.num 1) ∧ factorialFuel 1 1 = some (.num 1) ∧
      factorialCall 0 = none ∧ factorialCall 1 = none ∧
      factorialDepth 1 0 = some 0 ∧ factorialDepth 1 1 = some 0 := by
  refine ⟨?_, ?_, rfl, rfl, rfl, rfl, rfl, rfl⟩
  · rw [factorial_unfold]; rfl
  · rw [factorial_unfold]; rfl

/-- C3: for every integer `n < 0`, `factorial n` is `null`: the evaluation returns it with
a single activation and no recursive call (the embedding has no error outcome, so none is
raised); in particular `factorial (-3)` is `null`. -/
theorem factorial_negative (n : Int) (h : n < 0) :
    factorial n = .null ∧ factorialFuel 1 n = some .null ∧ factorialCall n = none ∧
      factorial (-3) = .null := by
  have key : ∀ m : Int, m < 0 → factorial m = .null := by
    intro m hm
    rw [factorial_unfold, if_neg (by omega), if_neg (by omega), if_pos hm]
  refine ⟨key n h, ?_, ?_, key (-3) (by decide)⟩
  · rw [factorialFuel_succ, if_neg (by omega), if_neg (by omega), if_pos h]
  · unfold factorialCall
    rw [if_neg (by omega), if_neg (by omega), if_pos h]

theorem factorial_negative_witness :
    (-3 : Int) < 0 ∧
      (factorial (-3) = .null ∧ factorialFuel 1 (-3) = some .null ∧
        factorialCall (-3) = none ∧ factorial (-3) = .null) :=
  ⟨by decide, factorial_negative (-3) (by decide)⟩

/-- C8: the two alternative bodies of the `default` case agree.  The ternary expression and
the `if`/`else` statement return the same result over any recursive callee, so the
`factorial` defined with the one and the `factorial` defined with the other return the same
result for every integer `n` at every bound on the activations; the ternary one is the
function as written, and both return `factorial n` once `n.toNat + 1` activations are
allowed. -/
theorem factorial_ternary_ifElse_equiv (n : Int) (fuel : Nat) :
    (∀ self : Int → Option JsVal, defaultTernary self n = defaultIfElse self n) ∧
      factorialTernary fuel n = factorialIfElse fuel n ∧
      factorialTernary fuel n = factorialFuel fuel n ∧
      factorialTernary (n.toNat + 1 + fuel) n = some (factorial n) ∧
      factorialIfElse (n.toNat + 1 + fuel) n = some (factorial n) := by
  have h1 := factorialTernary_eq_factorialIfElse (n.toNat + 1 + fuel) n
  have h2 := factorialTernary_eq_factorialFuel (n.toNat + 1 + fuel) n
  have h3 := factorialFuel_enough n fuel
  refine ⟨fun self => defaultTernary_eq_defaultIfElse self n,
    factorialTernary_eq_factorialIfElse fuel n, factorialTernary_eq_factorialFuel fuel n,
    ?_, ?_⟩
  · rw [h2, h3]
  · rw [← h1, h2, h3]

/-- C4: `treeHeight` of a `Leaf` is `0`, and `treeHeight` of `Branch value left right` is
`1 + Math.max(treeHeight left, treeHeight right)`; for subtrees built from `Branch` and
`Leaf` the two heights are integers `a` and `b` and the result is the integer
`1 + max a b`.  The tree of the script, `Branch 5 (Branch 3 Leaf Leaf) Leaf`, has
height `2`. -/
theorem treeHeight_contract (value : Int) (left right : Tree)
    (hl : wellTyped left = true) (hr : wellTyped right = true) :
    treeHeight Tree.Leaf = .num 0 ∧
      treeHeight (Tree.Branch value left right) =
        jsAdd (.num 1) (mathMax (treeHeight left) (treeHeight right)) ∧
      (∃ a b : Int, treeHeight left = .num a ∧ treeHeight right = .num b ∧
        treeHeight (Tree.Branch value left right) = .num (1 + max a b)) ∧
      tree = Tree.Branch 5 (Tree.Branch 3 Tree.Leaf Tree.Leaf) Tree.Leaf ∧
      treeHeight tree = .num 2 ∧ treeHeightFuel 3 tree = some (.num 2) := by
  obtain ⟨a, _, ha⟩ := treeHeight_num left hl
  obtain ⟨b, _, hb⟩ := treeHeight_num right hr
  refine ⟨rfl, rfl, ⟨a, b, ha, hb, ?_⟩, rfl, by decide, by decide⟩
  rw [treeHeight_branch, ha, hb]; rfl

theorem treeHeight_contract_witness :
    wellTyped (Tree.Branch 3 Tree.Leaf Tree.Leaf) = true ∧ wellTyped Tree.Leaf = true ∧
      (treeHeight Tree.Leaf = .num 0 ∧
        treeHeight (Tree.Branch 5 (Tree.Branch 3 Tree.Leaf Tree.Leaf) Tree.Leaf) =
          jsAdd (.num 1)
            (mathMax (treeHeight (Tree.Branch 3 Tree.Leaf Tree.Leaf)) (treeHeight Tree.Leaf)) ∧
        (∃ a b : Int, treeHeight (Tree.Branch 3 Tree.Leaf Tree.Leaf) = .num a ∧
          treeHeight Tree.Leaf = .num b ∧
          treeHeight (Tree.Branch 5 (Tree.Branch 3 Tree.Leaf Tree.Leaf) Tree.Leaf) =
            .num (1 + max a b)) ∧
        tree = Tree.Branch 5 (Tree.Branch 3 Tree.Leaf Tree.Leaf) Tree.Leaf ∧
        treeHeight tree = .num 2 ∧ treeHeightFuel 3 tree = some (.num 2)) :=
  ⟨by decide, by decide,
    treeHeight_contract 5 (Tree.Branch 3 Tree.Leaf Tree.Leaf) Tree.Leaf (by decide) (by decide)⟩

/-- C6: for every tree built only from `Branch` and `Leaf`, `treeHeight` returns a
defined value (not `undefined`, and not `NaN` or `null` either), and that value is an
integer `a ≥ 0`; the evaluation returns it. -/
theorem treeHeight_defined_nonneg (t : Tree) (h : wellTyped t = true) :
    ∃ a : Int, 0 ≤ a ∧ treeHeight t = .num a ∧ treeHeight t ≠ .undefined ∧
      treeHeightFuel (nodes t) t = some (.num a) := by
  obtain ⟨a, ha, ht⟩ := treeHeight_num t h
  refine ⟨a, ha, ht, ?_, ?_⟩
  · rw [ht]; exact fun e => JsVal.noConfusion e
  · rw [← ht]; exact treeHeightFuel_enough t 0

theorem treeHeight_defined_nonneg_witness :
    wellTyped tree = true ∧
      ∃ a : Int, 0 ≤ a ∧ treeHeight tree = .num a ∧ treeHeight tree ≠ .undefined ∧
        treeHeightFuel (nodes tree) tree = some (.num a) :=
  ⟨by decide, treeHeight_defined_nonneg tree (by decide)⟩

/-- C7: for every (finite) tree the evaluation of `treeHeight` terminates: as many
activations as the tree has nodes (or more) return the result.  The body makes no recursive
call, or the tree is `Branch value left right` and its two recursive calls are on `left`
and on `right`, each with fewer nodes than the tree. -/
theorem treeHeight_terminates (t : Tree) :
    (∀ k : Nat, treeHeightFuel (nodes t + k) t = some (treeHeight t)) ∧
      (treeHeightCalls t = [] ∨
        ∃ (value : Int) (left right : Tree), t = Tree.Branch value left right ∧
          treeHeightCalls t = [left, right] ∧
          nodes left < nodes t ∧ nodes right < nodes t) := by
  refine ⟨treeHeightFuel_enough t, ?_⟩
  cases t with
  | Branch v l r =>
    refine Or.inr ⟨v, l, r, rfl, rfl, ?_, ?_⟩
    · simp only [nodes]; omega
    · simp only [nodes]; omega
  | Leaf => exact Or.inl rfl
  | Other => exact Or.inl rfl

/-- C10: a value that is neither variant is unhandled: for every value that is an instance
of neither `Branch` nor `Leaf`, `treeHeight` fails both `instanceof` tests and returns
`undefined`, which is not a number, with a single activation and no recursive call. -/
theorem treeHeight_neither_variant (t : Tree)
    (hb : instanceofBranch t = false) (hl : instanceofLeaf t = false) :
    treeHeight t = .undefined ∧ treeHeightFuel 1 t = some .undefined ∧
      treeHeightCalls t = [] ∧ ∀ a : Int, treeHeight t ≠ .num a := by
  cases t with
  | Branch v l r => simp [instanceofBranch] at hb
  | Leaf => simp [instanceofLeaf] at hl
  | Other => exact ⟨rfl, rfl, rfl, fun a e => JsVal.noConfusion e⟩

theorem treeHeight_neither_variant_witness :
    instanceofBranch Tree.Other = false ∧ instanceofLeaf Tree.Other = false ∧
      (treeHeight Tree.Other = .undefined ∧ treeHeightFuel 1 Tree.Other = some .undefined ∧
        treeHeightCalls Tree.Other = [] ∧ ∀ a : Int, treeHeight Tree.Other ≠ .num a) :=
  ⟨rfl, rfl, treeHeight_neither_variant Tree.Other rfl rfl⟩

/-! ## `factorial` on rational arguments: lemmas -/

theorem factorialFuelQ_succ (fuel : Nat) (n : ℚ) :
    factorialFuelQ (fuel + 1) n =
      if n = 0 then some (.num 1)
      else if n = 1 then some (.num 1)
      else if n < 0 then some .null
      else (factorialFuelQ fuel (n - 1)).map (jsMulQ (.num n)) := rfl

theorem factorialFuelQ_intCast (fuel : Nat) :
    ∀ z : Int, factorialFuelQ fuel (z : ℚ) = (factorialFuel fuel z).map JsVal.toQ := by
  induction fuel with
  | zero => intro z; rfl
  | succ k ih =>
    intro z
    rw [factorialFuelQ_succ, factorialFuel_succ]
    have e : (z : ℚ) - 1 = ((z - 1 : Int) : ℚ) := by push_cast; ring
    simp only [Int.cast_eq_zero, Int.cast_eq_one, Int.cast_lt_zero]
    split_ifs with h0 h1 h2
    · rfl
    · rfl
    · rfl
    · rw [e, ih (z - 1)]
      cases factorialFuel k (z - 1) with
      | none => rfl
      | some v =>
        cases v with
        | undefined => rfl
        | null => simp [jsMul, jsMulQ, toNumber, toNumberQ, JsVal.toQ]
        | num w => simp [jsMul, jsMulQ, toNumber, toNumberQ, JsVal.toQ]
        | nan => rfl

theorem isInteger_false_ne (n : ℚ) (h : isInteger n = false) (z : Int) : n ≠ (z : ℚ) := by
  intro e
  subst e
  simp [isInteger] at h

theorem isInteger_sub_one (n : ℚ) (h : isInteger n = false) : isInteger (n - 1) = false := by
  by_contra hc
  have hd : (n - 1).den = 1 := by
    simpa [isInteger] using hc
  have e : (((n - 1).num : Int) : ℚ) = n - 1 := (Rat.den_eq_one_iff (n - 1)).1 hd
  apply isInteger_false_ne n h ((n - 1).num + 1)
  push_cast
  linarith

theorem factorialCallQ_some (n m : ℚ) (h : factorialCallQ n = some m) :
    m = n - 1 ∧ 0 < n ∧ n ≠ 1 := by
  unfold factorialCallQ at h
  split_ifs at h with h0 h1 h2
  have hm : n - 1 = m := Option.some.inj h
  refine ⟨hm.symm, ?_, h1⟩
  exact lt_of_le_of_ne (not_lt.1 h2) (Ne.symm h0)

theorem factorialChainQ_nonInteger (k : Nat) :
    ∀ n : ℚ, isInteger n = false →
      factorialChainQ k n = none ∨
        ∃ m : ℚ, factorialChainQ k n = some m ∧ isInteger m = false := by
  induction k with
  | zero => intro n h; exact Or.inr ⟨n, rfl, h⟩
  | succ k ih =>
    intro n h
    cases hc : factorialCallQ n with
    | none => left; simp only [factorialChainQ, hc]
    | some m =>
      obtain ⟨hm, _, _⟩ := factorialCallQ_some n m hc
      have := ih m (by rw [hm]; exact isInteger_sub_one n h)
      simpa only [factorialChainQ, hc] using this

theorem factorialChainQ_stops (k : Nat) :
    ∀ n : ℚ, n ≤ k →
      ∃ (j : Nat) (m : ℚ), factorialChainQ j n = some m ∧ factorialCallQ m = none := by
  induction k with
  | zero =>
    intro n hn
    refine ⟨0, n, rfl, ?_⟩
    have hn0 : n ≤ 0 := by simpa using hn
    unfold factorialCallQ
    split_ifs with h0 h1 h2
    · rfl
    · rfl
    · rfl
    · exact absurd (lt_of_le_of_ne hn0 h0) h2
  | succ k ih =>
    intro n hn
    cases hc : factorialCallQ n with
    | none => exact ⟨0, n, rfl, hc⟩
    | some m =>
      obtain ⟨hm, _, _⟩ := factorialCallQ_some n m hc
      obtain ⟨j, r, hj, hr⟩ := ih m (by rw [hm]; push_cast at hn; linarith)
      exact ⟨j + 1, r, by simpa only [factorialChainQ, hc] using hj, hr⟩

theorem factorialFuelQ_nonInteger (k : Nat) :
    ∀ n : ℚ, isInteger n = false → n ≤ k →
      factorialFuelQ (k + 1) n = some (if n < 0 then .null else .num 0) := by
  induction k with
  | zero =>
    intro n h hn
    have hn0 : n ≤ 0 := by simpa using hn
    have h0 : n ≠ 0 := by simpa using isInteger_false_ne n h 0
    have hlt : n < 0 := lt_of_le_of_ne hn0 h0
    have h1 : n ≠ 1 := by linarith
    rw [factorialFuelQ_succ, if_neg h0, if_neg h1, if_pos hlt, if_pos hlt]
  | succ k ih =>
    intro n h hn
    have h0 : n ≠ 0 := by simpa using isInteger_false_ne n h 0
    have h1 : n ≠ 1 := by simpa using isInteger_false_ne n h 1
    rw [factorialFuelQ_succ, if_neg h0, if_neg h1]
    by_cases hlt : n < 0
    · rw [if_pos hlt, if_pos hlt]
    · rw [if_neg hlt, if_neg hlt,
        ih (n - 1) (isInteger_sub_one n h) (by push_cast at hn; linarith)]
      by_cases h2 : n - 1 < 0
      · rw [if_pos h2]; simp [jsMulQ, toNumberQ]
      · rw [if_neg h2]; simp [jsMulQ, toNumberQ]

theorem le_ceil_toNat (n : ℚ) : n ≤ (⌈n⌉.toNat : ℚ) := by
  have h1 : n ≤ (⌈n⌉ : ℚ) := Int.le_ceil n
  have h2 : (⌈n⌉ : ℚ) ≤ ((⌈n⌉.toNat : Int) : ℚ) := by
    exact_mod_cast Int.self_le_toNat ⌈n⌉
  have h3 : ((⌈n⌉.toNat : Int) : ℚ) = (⌈n⌉.toNat : ℚ) := by push_cast; rfl
  linarith

theorem factorialCallQ_none (m : ℚ) (h : factorialCallQ m = none) :
    m = 0 ∨ m = 1 ∨ m < 0 := by
  unfold factorialCallQ at h
  split_ifs at h with h0 h1 h2
  · exact Or.inl h0
  · exact Or.inr (Or.inl h1)
  · exact Or.inr (Or.inr h2)

/-! ## `factorial` on non-integer arguments -/

/-- C11, as stated, fails: no non-integer rational `n` has a chain of recursive calls
`factorial(n)`, `factorial(n - 1)`, ... all of whose calls recurse.  For `n = 1/2` the
first nested call is on `-1/2`, which the test `n < 0` answers with `null` and no further
call, and two activations return `0` (the product `1/2 * null`). -/
theorem factorial_chain_always_ends :
    (¬ ∃ n : ℚ, isInteger n = false ∧
        ∀ k : Nat, ∃ m : ℚ, factorialChainQ k n = some m ∧ factorialCallQ m ≠ none) ∧
      isInteger (1 / 2) = false ∧
      factorialChainQ 1 (1 / 2) = some (-1 / 2) ∧ factorialCallQ (-1 / 2) = none ∧
      factorialFuelQ 2 (1 / 2) = some (.num 0) := by
  refine ⟨?_, by norm_num [isInteger], ?_, ?_, ?_⟩
  · rintro ⟨n, _, hall⟩
    obtain ⟨j, m, hj, hm⟩ := factorialChainQ_stops ⌈n⌉.toNat n (le_ceil_toNat n)
    obtain ⟨m', hj', hm'⟩ := hall j
    rw [hj] at hj'
    exact hm' (Option.some.inj hj' ▸ hm)
  · norm_num [factorialChainQ, factorialCallQ]
  · norm_num [factorialCallQ]
  · norm_num [factorialFuelQ, jsMulQ, toNumberQ]

/-- C11, amended: `factorial` has no guard that tells a non-integer argument apart, and for
every non-integer rational `n` the chain of recursive calls `factorial(n)`,
`factorial(n - 1)`, ... never reaches the base cases `0` and `1`.  The chain still reaches a
branch that returns without recursing, the test `n < 0` at a negative argument, so the
evaluation terminates: `⌈n⌉.toNat + 1` activations (or more) return `null` when `n < 0` and
the number `0` otherwise. -/
theorem factorial_nonInteger_terminates (n : ℚ) (h : isInteger n = false) :
    (∀ k : Nat, factorialChainQ k n = none ∨
        ∃ m : ℚ, factorialChainQ k n = some m ∧ m ≠ 0 ∧ m ≠ 1) ∧
      (∃ (j : Nat) (m : ℚ),
        factorialChainQ j n = some m ∧ m < 0 ∧ factorialCallQ m = none) ∧
      (∀ i : Nat, factorialFuelQ (⌈n⌉.toNat + 1 + i) n =
        some (if n < 0 then .null else .num 0)) := by
  refine ⟨?_, ?_, ?_⟩
  · intro k
    rcases factorialChainQ_nonInteger k n h with hk | ⟨m, hk, hm⟩
    · exact Or.inl hk
    · refine Or.inr ⟨m, hk, ?_, ?_⟩
      · simpa using isInteger_false_ne m hm 0
      · simpa using isInteger_false_ne m hm 1
  · obtain ⟨j, m, hj, hm⟩ := factorialChainQ_stops ⌈n⌉.toNat n (le_ceil_toNat n)
    rcases factorialChainQ_nonInteger j n h with hk | ⟨m', hk, hm'⟩
    · rw [hj] at hk; exact absurd hk (Option.some_ne_none m)
    · rw [hj] at hk
      have e : m = m' := Option.some.inj hk
      subst e
      have h0 : m ≠ 0 := by simpa using isInteger_false_ne m hm' 0
      have h1 : m ≠ 1 := by simpa using isInteger_false_ne m hm' 1
      rcases factorialCallQ_none m hm with c | c | c
      · exact absurd c h0
      · exact absurd c h1
      · exact ⟨j, m, hj, c, hm⟩
  · intro i
    have e : ⌈n⌉.toNat + 1 + i = (⌈n⌉.toNat + i) + 1 := by omega
    rw [e]
    refine factorialFuelQ_nonInteger (⌈n⌉.toNat + i) n h ?_
    have := le_ceil_toNat n
    push_cast
    have hi : (0 : ℚ) ≤ (i : ℚ) := Nat.cast_nonneg i
    linarith

theorem factorial_nonInteger_terminates_witness :
    isInteger (3 / 2) = false ∧
      ((∀ k : Nat, factorialChainQ k (3 / 2) = none ∨
          ∃ m : ℚ, factorialChainQ k (3 / 2) = some m ∧ m ≠ 0 ∧ m ≠ 1) ∧
        (∃ (j : Nat) (m : ℚ),
          factorialChainQ j (3 / 2) = some m ∧ m < 0 ∧ factorialCallQ m = none) ∧
        (∀ i : Nat, factorialFuelQ (⌈(3 / 2 : ℚ)⌉.toNat + 1 + i) (3 / 2) =
          some (if (3 / 2 : ℚ) < 0 then .null else .num 0))) :=
  ⟨by norm_num [isInteger],
    factorial_nonInteger_terminates (3 / 2) (by norm_num [isInteger])⟩

/-! ## `factorial` and the mathematical factorial -/

theorem treeHeight_bounds (t : Tree) :
    wellTyped t = true →
      ∃ a : Nat, treeHeight t = .num (a : Int) ∧ a ≤ branches t ∧ branches t + 1 ≤ 2 ^ a ∧
        (a = 0 ↔ t = Tree.Leaf) := by
  induction t with
  | Branch v l r ihl ihr =>
    intro h
    simp only [wellTyped, Bool.and_eq_true] at h
    obtain ⟨a, ha, hal, hau, _⟩ := ihl h.1
    obtain ⟨b, hb, hbl, hbu, _⟩ := ihr h.2
    refine ⟨1 + max a b, ?_, ?_, ?_, ?_⟩
    · rw [treeHeight_branch, ha, hb]
      simp [jsAdd, mathMax, toNumber]
    · simp only [branches]
      rcases le_total a b with hab | hab
      · rw [max_eq_right hab]; omega
      · rw [max_eq_left hab]; omega
    · simp only [branches]
      have h1 : 2 ^ a ≤ 2 ^ max a b := Nat.pow_le_pow_right (by decide) (le_max_left a b)
      have h2 : 2 ^ b ≤ 2 ^ max a b := Nat.pow_le_pow_right (by decide) (le_max_right a b)
      have h3 : 2 ^ (1 + max a b) = 2 * 2 ^ max a b := by rw [Nat.add_comm, Nat.pow_succ]; ring
      omega
    · constructor
      · intro h0; omega
      · intro h0; exact Tree.noConfusion h0
  | Leaf => intro _; exact ⟨0, rfl, le_refl _, le_refl _, by simp⟩
  | Other => intro h; simp [wellTyped] at h

theorem mathMax_comm (a b : JsVal) : mathMax a b = mathMax b a := by
  cases a <;> cases b <;> simp [mathMax, toNumber, max_comm]

theorem treeHeight_mapValues (f : Int → Int) (t : Tree) :
    treeHeight (mapValues f t) = treeHeight t := by
  induction t with
  | Branch v l r ihl ihr => simp only [mapValues, treeHeight, ihl, ihr]
  | Leaf => rfl
  | Other => rfl

theorem treeHeight_mirror (t : Tree) : treeHeight (mirror t) = treeHeight t := by
  induction t with
  | Branch v l r ihl ihr =>
    simp only [mirror, treeHeight, ihl, ihr]
    rw [mathMax_comm]
  | Leaf => rfl
  | Other => rfl

theorem treeHeight_replaceValue (path : List Bool) (v : Int) :
    ∀ t : Tree, treeHeight (replaceValue path v t) = treeHeight t := by
  induction path with
  | nil => intro t; cases t <;> rfl
  | cons b path ih =>
    intro t
    cases t with
    | Branch w l r =>
      cases b with
      | false => simp only [replaceValue, treeHeight, ih l]
      | true => simp only [replaceValue, treeHeight, ih r]
    | Leaf => cases b <;> rfl
    | Other => cases b <;> rfl

theorem sameShape_treeHeight (t : Tree) :
    ∀ t' : Tree, sameShape t t' = true → treeHeight t' = treeHeight t := by
  induction t with
  | Branch v l r ihl ihr =>
    intro t' h
    cases t' with
    | Branch v' l' r' =>
      simp only [sameShape, Bool.and_eq_true] at h
      simp only [treeHeight, ihl l' h.1, ihr r' h.2]
    | Leaf => simp [sameShape] at h
    | Other => simp [sameShape] at h
  | Leaf => intro t' h; cases t' <;> simp [sameShape] at h ⊢
  | Other => intro t' h; cases t' <;> simp [sameShape] at h ⊢

theorem sameShape_replaceValue (path : List Bool) (v : Int) :
    ∀ t : Tree, sameShape t (replaceValue path v t) = true := by
  have refl : ∀ t : Tree, sameShape t t = true := by
    intro t
    induction t with
    | Branch w l r ihl ihr => simp only [sameShape, ihl, ihr, Bool.and_self]
    | Leaf => rfl
    | Other => rfl
  induction path with
  | nil => intro t; cases t <;> simp [replaceValue, sameShape, refl]
  | cons b path ih =>
    intro t
    cases t with
    | Branch w l r => cases b <;> simp [replaceValue, sameShape, refl, ih]
    | Leaf => cases b <;> rfl
    | Other => cases b <;> rfl

/-- C14: for every tree `t` built from `Branch` and `Leaf`, with `b` the number of its
`Branch` nodes, `treeHeight t` is an integer `a` with `a ≤ b ≤ 2 ^ a - 1`; and
`treeHeight t` is `0` if and only if `t` is a `Leaf`. -/
theorem treeHeight_branches_bounds (t : Tree) (h : wellTyped t = true) :
    ∃ a : Nat, treeHeight t = .num (a : Int) ∧
      a ≤ branches t ∧ branches t ≤ 2 ^ a - 1 ∧
      (a = 0 ↔ t = Tree.Leaf) ∧ (treeHeight t = .num 0 ↔ t = Tree.Leaf) := by
  obtain ⟨a, ha, hl, hu, hz⟩ := treeHeight_bounds t h
  refine ⟨a, ha, hl, by omega, hz, ?_⟩
  rw [ha, ← hz]
  constructor
  · intro e
    have : (a : Int) = 0 := JsVal.num.inj e
    exact_mod_cast this
  · intro e; rw [e]; rfl

theorem treeHeight_branches_bounds_witness :
    wellTyped tree = true ∧
      ∃ a : Nat, treeHeight tree = .num (a : Int) ∧
        a ≤ branches tree ∧ branches tree ≤ 2 ^ a - 1 ∧
        (a = 0 ↔ tree = Tree.Leaf) ∧ (treeHeight tree = .num 0 ↔ tree = Tree.Leaf) :=
  ⟨by decide, treeHeight_branches_bounds tree (by decide)⟩

/-- C15: `treeHeight` depends only on the shape of the tree.  A tree `t'` that differs from
`t` only in the values stored in its `Branch` nodes has the same `treeHeight`; so has `t`
with the value of any one `Branch` replaced, `t` with every value replaced through a
function, and the mirror image of `t` (left and right swapped in every `Branch`). -/
theorem treeHeight_shape_only (t t' : Tree) (path : List Bool) (v : Int) (f : Int → Int)
    (h : sameShape t t' = true) :
    treeHeight t' = treeHeight t ∧
      sameShape t (replaceValue path v t) = true ∧
      treeHeight (replaceValue path v t) = treeHeight t ∧
      treeHeight (mapValues f t) = treeHeight t ∧
      treeHeight (mirror t) = treeHeight t :=
  ⟨sameShape_treeHeight t t' h, sameShape_replaceValue path v t,
    treeHeight_replaceValue path v t, treeHeight_mapValues f t, treeHeight_mirror t⟩

theorem treeHeight_shape_only_witness :
    sameShape tree (Tree.Branch 7 (Tree.Branch 9 Tree.Leaf Tree.Leaf) Tree.Leaf) = true ∧
      (treeHeight (Tree.Branch 7 (Tree.Branch 9 Tree.Leaf Tree.Leaf) Tree.Leaf) =
          treeHeight tree ∧
        sameShape tree (replaceValue [false] 4 tree) = true ∧
        treeHeight (replaceValue [false] 4 tree) = treeHeight tree ∧
        treeHeight (mapValues (fun x => x + 1) tree) = treeHeight tree ∧
        treeHeight (mirror tree) = treeHeight tree) :=
  ⟨by decide,
    treeHeight_shape_only tree (Tree.Branch 7 (Tree.Branch 9 Tree.Leaf Tree.Leaf) Tree.Leaf)
      [false] 4 (fun x => x + 1) (by decide)⟩

end PatternMatching
